import Mathlib

/-!
# Verification of the music-news-24h aggregation handler

Shallow embedding of the serverless handler in `api/news.js` (full variant:
the one with remote feed loading, URL de-duplication and the translation
limit).  JavaScript strings are Lean `String`s, millisecond epoch instants
are `Int`, and JavaScript numbers that may be NaN are `Option ℚ` (`none`
standing for NaN; every comparison with NaN is false, which the embedding
makes explicit at each use).  External effects (the RSS fetches, the DeepL
HTTP call) are inputs: each fetch result and the provider are `Except`
values, so a failed fetch or a failed provider call is an explicit `.error`.
-/

namespace MusicNews

/-- JavaScript truthiness for an optional string: `undefined` and the empty
string are falsy.  Used to embed the `a || b` chains of the handler. -/
def truthy (o : Option String) : Option String :=
  match o with
  | some s => if s = "" then none else some s
  | none => none

/-- Embeds a JavaScript chain `a || b || c` over possibly-absent strings:
the first truthy value, if any. -/
def firstTruthy (l : List (Option String)) : Option String :=
  l.findSome? truthy

/-- Lowercasing, character by character (`String#toLowerCase`; on the ASCII
and katakana strings of this program this is exactly the JavaScript
behavior). -/
def lowerStr (s : String) : String := String.mk (s.toList.map Char.toLower)

/-- Uppercasing, character by character (`String#toUpperCase`). -/
def upperStr (s : String) : String := String.mk (s.toList.map Char.toUpper)

/-- One raw parsed feed entry as produced by rss-parser: every field may be
absent. -/
structure RawEntry where
  isoDate : Option String := none
  pubDate : Option String := none
  published : Option String := none
  updated : Option String := none
  title : Option String := none
  link : Option String := none
  guid : Option String := none
  contentSnippet : Option String := none
  summary : Option String := none
deriving DecidableEq

/-- A feed descriptor `{source, url, defaultGenre}`. -/
structure Feed where
  source : String
  url : String
  defaultGenre : String
deriving DecidableEq

/-- The canonical item built by the handler.  `fallbackGenre` embeds the
internal `_fallbackGenre` field that is stripped before emission. -/
structure Item where
  id : String
  title : String
  url : String
  source : String
  publishedAt : Option String
  summary : Option String
  titleJa : Option String
  summaryJa : Option String
  fallbackGenre : String
deriving DecidableEq

/-- Characters treated as whitespace by JavaScript regexp `\s` (the ASCII
ones plus no-break space; enough for the strings this pipeline sees). -/
def isJsSpace (c : Char) : Bool :=
  c = ' ' || c = '\t' || c = '\n' || c = '\r' || c = '\x0b' || c = '\x0c' || c = ' '

/-- `String#trim`: strips leading and trailing whitespace. -/
def trimStr (s : String) : String :=
  String.mk (((s.toList.dropWhile isJsSpace).reverse.dropWhile isJsSpace).reverse)

/-- Lexicographic code-point order on character lists: the order
JavaScript `localeCompare` induces on the ASCII ISO-8601 strings this
program compares. -/
def charListLe : List Char → List Char → Bool
  | [], _ => true
  | _ :: _, [] => false
  | a :: as, b :: bs => if a < b then true else if b < a then false else charListLe as bs

/-- Code-point string comparison (`a.localeCompare(b) <= 0` on the ASCII
strings at hand). -/
def strLe (a b : String) : Bool := charListLe a.toList b.toList

/-- State machine for `replace(/\s+/g, " ")`: the flag records whether the
previous character was whitespace (a run already emitted one space). -/
def collapseWsAux : Bool → List Char → List Char
  | _, [] => []
  | prevWs, c :: cs =>
    if isJsSpace c then
      if prevWs then collapseWsAux true cs
      else ' ' :: collapseWsAux true cs
    else c :: collapseWsAux false cs

/-- Summary construction of the handler:
`(contentSnippet || summary || "").replace(/\s+/g," ").trim().slice(0,240) || null`. -/
def mkSummary (e : RawEntry) : Option String :=
  let raw := (firstTruthy [e.contentSnippet, e.summary]).getD ""
  let s := trimStr (String.mk (collapseWsAux false raw.toList))
  let s := String.mk (s.toList.take 240)
  if s = "" then none else some s

/-- The window test `publishedMs < since` where `since` may be NaN
(`none`): every comparison against NaN is false, so a NaN bound admits
every parseable date. -/
def msBelowSince (ms : Int) (since : Option ℚ) : Bool :=
  match since with
  | none => false
  | some s => (ms : ℚ) < s

/-- Normalization of one raw entry (the body of the per-feed loop):
resolve the publish date from the first truthy candidate, drop the entry if
it does not parse or falls below the window bound, drop it if title or url
trim to empty, otherwise build the canonical item.  `parseDate` embeds
`new Date(raw).getTime()` (`none` = NaN) and `isoOf` embeds
`Date#toISOString` on a finite instant. -/
def normalize (parseDate : String → Option Int) (isoOf : Int → String)
    (since : Option ℚ) (f : Feed) (e : RawEntry) : Option Item :=
  match firstTruthy [e.isoDate, e.pubDate, e.published, e.updated] with
  | none => none
  | some raw =>
    match parseDate raw with
    | none => none
    | some ms =>
      if msBelowSince ms since then none
      else
        let title := trimStr ((e.title).getD "")
        let url := trimStr ((firstTruthy [e.link, e.guid]).getD "")
        if title = "" ∨ url = "" then none
        else some
          { id := f.source ++ "::" ++ url
            title := title
            url := url
            source := f.source
            publishedAt := some (isoOf ms)
            summary := mkSummary e
            titleJa := none
            summaryJa := none
            fallbackGenre := f.defaultGenre }

/-- Collects the items of all settled fetches: a feed whose fetch failed
contributes nothing (its error is swallowed inside its own task), a
successful feed contributes its normalized entries. -/
def collectItems (parseDate : String → Option Int) (isoOf : Int → String)
    (since : Option ℚ) (pairs : List (Feed × Except Unit (List RawEntry))) : List Item :=
  pairs.flatMap fun p =>
    match p.2 with
    | .error _ => []
    | .ok entries => entries.filterMap (normalize parseDate isoOf since p.1)

/-- Sort key of the comparator `(b.publishedAt || "").localeCompare(a.publishedAt || "")`
(on ISO-8601 ASCII strings localeCompare agrees with code-point order). -/
def sortKey (it : Item) : String := it.publishedAt.getD ""

/-- Stable descending insertion: the incoming (earlier) element passes only
elements with strictly smaller key, so equal keys keep source order —
exactly the guarantee of the (stable) JavaScript `Array#sort`. -/
def insertDesc (x : Item) : List Item → List Item
  | [] => [x]
  | y :: ys => if strLe (sortKey y) (sortKey x) then x :: y :: ys else y :: insertDesc x ys

/-- The stable descending-by-publishedAt sort of the handler. -/
def sortDesc (l : List Item) : List Item := l.foldr insertDesc []

/-- The de-duplication loop: a growing `seen` set of urls, keeping the
first occurrence of every url. -/
def dedupeAux (seen : List String) : List Item → List Item
  | [] => []
  | x :: xs =>
    if x.url ∈ seen then dedupeAux seen xs
    else x :: dedupeAux (x.url :: seen) xs

/-- De-duplication by url over the sorted sequence. -/
def dedupe (l : List Item) : List Item := dedupeAux [] l

/-- ASCII letter test, the `[A-Za-z]` character class. -/
def isAsciiLetter (c : Char) : Bool :=
  (('A' ≤ c && c ≤ 'Z') || ('a' ≤ c && c ≤ 'z'))

/-- `looksEnglish`: ASCII-letter count over non-whitespace count exceeds
0.45.  `letters / nonSpace > 0.45` is the exact rational comparison
`20 * letters > 9 * nonSpace`; the `|| 1` of the source guards the empty
string. -/
def looksEnglish (s : String) : Bool :=
  let letters := (s.toList.filter isAsciiLetter).length
  let n := (s.toList.filter (fun c => !(isJsSpace c))).length
  let nonSpace := if n = 0 then 1 else n
  20 * letters > 9 * nonSpace

/-- A translation-cache value `{ t, v: { titleJa, summaryJa } }`. -/
structure CacheEntry where
  t : Int
  titleJa : Option String
  summaryJa : Option String
deriving DecidableEq

/-- The process-wide translation cache (a `Map` keyed by strings). -/
abbrev TlCache : Type := List (String × CacheEntry)

/-- `Map#get`. -/
def cacheGet (c : TlCache) (k : String) : Option CacheEntry :=
  (List.find? (fun p => p.1 = k) c).map Prod.snd

/-- `Map#set`: the new binding shadows any previous binding of the key. -/
def cacheSet (c : TlCache) (k : String) (v : CacheEntry) : TlCache :=
  (k, v) :: List.filter (fun p => p.1 ≠ k) c

/-- `TL_TTL_MS = 6 * 60 * 60 * 1000`. -/
def TL_TTL_MS : Int := 21600000

/-- `TRANSLATE_LIMIT = 40`. -/
def TRANSLATE_LIMIT : Nat := 40

/-- The composite cache key of an item. -/
def keyOf (t : Item) : String := t.title ++ "|||" ++ (t.summary.getD "")

/-- The summary text submitted for translation is cut to 400 characters. -/
def truncSummary (t : Item) : String :=
  String.mk ((t.summary.getD "").toList.take 400)

/-- The cache-probe loop over the limited candidates, carrying the index
into the limited list.  Returns, in loop order: the cache-hit assignments
(index, stored titleJa/summaryJa), the misses (index, cache key), and the
texts queued for the provider — title then truncated summary per miss.  A
present but expired entry is treated as a miss. -/
def probeCache (cache : TlCache) (now : Int) : Nat → List Item →
    List (Nat × (Option String × Option String)) × List (Nat × String) × List String
  | _, [] => ([], [], [])
  | i, t :: ts =>
    let rest := probeCache cache now (i + 1) ts
    match cacheGet cache (keyOf t) with
    | some e =>
      if now - e.t < TL_TTL_MS then
        ((i, (e.titleJa, e.summaryJa)) :: rest.1, rest.2.1, rest.2.2)
      else
        (rest.1, (i, keyOf t) :: rest.2.1, t.title :: truncSummary t :: rest.2.2)
    | none =>
      (rest.1, (i, keyOf t) :: rest.2.1, t.title :: truncSummary t :: rest.2.2)

/-- `x || null` on a possibly-absent provider output slot: out-of-range
(`undefined`) and the empty string both become null. -/
def jsOrNull (o : Option String) : Option String :=
  match o with
  | some s => if s = "" then none else some s
  | none => none

/-- The write-back loop over the misses, carrying the batch position `k`:
pairs provider outputs back up by position (`out[2k]`, `out[2k+1]`) and
records the cache writes in loop order. -/
def freshResults (now : Int) (out : List String) : Nat → List (Nat × String) →
    List (Nat × (Option String × Option String)) × List (String × CacheEntry)
  | _, [] => ([], [])
  | k, m :: ms =>
    let tja := jsOrNull (out.get? (2 * k))
    let sja := jsOrNull (out.get? (2 * k + 1))
    let rest := freshResults now out (k + 1) ms
    ((m.1, (tja, sja)) :: rest.1, (m.2, ⟨now, tja, sja⟩) :: rest.2)

/-- Sets `titleJa`/`summaryJa` on an item (both are always assigned
together, by a cache hit or by a fresh translation). -/
def setJa (it : Item) (p : Option String × Option String) : Item :=
  { it with titleJa := p.1, summaryJa := p.2 }

/-- Index lookup in an assignment list. -/
def lookupNat (c : Nat) (a : List (Nat × (Option String × Option String))) :
    Option (Option String × Option String) :=
  (List.find? (fun p => p.1 == c) a).map Prod.snd

/-- Replays the translation mutations on the deduplicated list: walking the
list, `c` counts the translation candidates seen so far, which is exactly
the index a candidate has in the limited-targets list; an assignment for
that index sets the item's Ja fields. -/
def applyAssign (a : List (Nat × (Option String × Option String))) :
    Nat → List Item → List Item
  | _, [] => []
  | c, it :: rest =>
    if looksEnglish it.title then
      (match lookupNat c a with
        | some p => setJa it p
        | none => it) :: applyAssign a (c + 1) rest
    else it :: applyAssign a c rest

/-- The first `TRANSLATE_LIMIT` translation candidates, in deduplicated
order: `deduped.filter(looksEnglish).slice(0, 40)`. -/
def limitedOf (deduped : List Item) : List Item :=
  (deduped.filter fun it => looksEnglish it.title).take TRANSLATE_LIMIT

/-- The translate stage of the handler (the try block around the DeepL
call).  Cache hits are applied during the probe loop, before the provider
call, so they survive a provider failure; the provider is called only when
there are misses and a credential is configured, and a thrown provider
error (`.error`) leaves items and cache as the probe left them — the
enclosing catch swallows it. -/
def translateStage (provider : List String → Except Unit (List String))
    (hasKey : Bool) (cache : TlCache) (now : Int) (deduped : List Item) :
    List Item × TlCache :=
  let probed := probeCache cache now 0 (limitedOf deduped)
  let hits := probed.1
  let misses := probed.2.1
  let need := probed.2.2
  if need ≠ [] ∧ hasKey then
    match provider need with
    | .ok out =>
      if out ≠ [] then
        let res := freshResults now out 0 misses
        (applyAssign (hits ++ res.1) 0 deduped,
          res.2.foldl (fun c kv => cacheSet c kv.1 kv.2) cache)
      else (applyAssign hits 0 deduped, cache)
    | .error _ => (applyAssign hits 0 deduped, cache)
  else (applyAssign hits 0 deduped, cache)

/-- Number of HTTP calls the translate stage issues to the provider for a
request: one exactly when there is at least one cache miss among the
limited candidates and a credential is configured, else zero. -/
def translateCalls (hasKey : Bool) (cache : TlCache) (now : Int)
    (deduped : List Item) : Nat :=
  if (probeCache cache now 0 (limitedOf deduped)).2.2 ≠ [] ∧ hasKey then 1 else 0

/-- The genre rule table, in declaration order. -/
def GENRES : List (String × List String) :=
  [("Techno", ["techno", "テクノ"]),
   ("House", ["house", "ハウス", "deep house", "ディープハウス"]),
   ("Drum & Bass", ["drum & bass", "dnb", "drum and bass", "ドラムンベース"]),
   ("Dubstep", ["dubstep", "ダブステップ"]),
   ("UK Garage", ["ukg", "garage", "uk garage", "2-step", "2step", "ガラージ", "ツーステップ"]),
   ("Ambient", ["ambient", "アンビエント"]),
   ("Experimental", ["experimental", "avant", "アヴァン", "実験", "noise", "ノイズ"]),
   ("Hip-Hop", ["hip-hop", "hip hop", "rap", "ラップ", "ヒップホップ"]),
   ("Metal", ["metal", "hardcore", "ハードコア", "メタル"]),
   ("Rock", ["rock", "indie", "punk", "ロック", "パンク"]),
   ("Pop", ["pop", "アイドル", "シングル", "mv", "music video"]),
   ("Japan", ["日本", "東京", "渋谷", "j-pop", "邦楽"])]

/-- Substring occurrence on character lists (`String#includes`). -/
def listContainsSub : List Char → List Char → Bool
  | needle, [] => needle.isEmpty
  | needle, c :: t => needle.isPrefixOf (c :: t) || listContainsSub needle t

/-- `hay.includes(needle)`. -/
def strIncludes (hay needle : String) : Bool :=
  listContainsSub needle.toList hay.toList

/-- `pickGenre`: scan rules in declared order, keywords in order, first
substring match of the lowercased keyword in the lowercased
title-space-source text wins; otherwise `fallback || "Other"`. -/
def pickGenre (title source fallback : String) : String :=
  let text := lowerStr (title ++ " " ++ source)
  match GENRES.findSome? (fun g =>
      g.2.findSome? fun kw => if strIncludes text (lowerStr kw) then some g.1 else none) with
  | some name => name
  | none => if fallback = "" then "Other" else fallback

/-- An emitted item: the rest-spread `{ _fallbackGenre, ...clean }` keeps
exactly these fields and drops the internal fallback genre. -/
structure ItemOut where
  id : String
  title : String
  url : String
  source : String
  publishedAt : Option String
  summary : Option String
  titleJa : Option String
  summaryJa : Option String
deriving DecidableEq

/-- The emission of one item: every field but the internal fallback. -/
def stripItem (it : Item) : ItemOut :=
  ⟨it.id, it.title, it.url, it.source, it.publishedAt, it.summary, it.titleJa, it.summaryJa⟩

/-- Appends an emitted item to its genre bucket, creating the bucket at the
end on first use — the insertion-order object-key semantics of
`genres[g] ||= []; genres[g].push(clean)`. -/
def pushGenre (acc : List (String × List ItemOut)) (g : String) (x : ItemOut) :
    List (String × List ItemOut) :=
  match acc with
  | [] => [(g, [x])]
  | (k, xs) :: rest =>
    if k = g then (k, xs ++ [x]) :: rest else (k, xs) :: pushGenre rest g x

/-- One step of the grouping loop: classify the item and push its emitted
form to the bucket of its genre. -/
def groupStep (acc : List (String × List ItemOut)) (it : Item) :
    List (String × List ItemOut) :=
  pushGenre acc (pickGenre it.title it.source it.fallbackGenre) (stripItem it)

/-- The grouping loop of the response assembler. -/
def groupGenres (l : List Item) : List (String × List ItemOut) :=
  l.foldl groupStep []

/-- The 200 response body of the handler, field for field. -/
structure Response where
  status : Nat
  generatedAt : String
  hours : Option ℚ
  feedCount : Nat
  totalItems : Nat
  feedsLoaded : List Feed
  genres : List (String × List ItemOut)
deriving DecidableEq

/-- The keys of the JSON object passed to `res.status(200).json(...)`, in
source order. -/
def responseKeys : List String :=
  ["generatedAt", "hours", "feedCount", "totalItems", "feedsLoaded", "genres"]

/-- `Math.max(1, Math.min(72, Number(req.query?.hours ?? 24)))`.
The input is the query parameter after `Number(...)`: `none` when the
parameter is absent (the `?? 24` branch), `some none` when it is present
but non-numeric (NaN — and `Math.min`/`Math.max` of NaN is NaN), and
`some (some x)` when it parses to the finite number `x`. -/
def clampHours (q : Option (Option ℚ)) : Option ℚ :=
  match q with
  | none => some 24
  | some none => none
  | some (some x) => some (max 1 (min 72 x))

/-- `since = Date.now() - hours * 60 * 60 * 1000`; NaN hours gives a NaN
bound. -/
def sinceOf (nowMs : Int) (h : Option ℚ) : Option ℚ :=
  h.map fun x => (nowMs : ℚ) - x * 3600000

/-- The full handler pipeline on settled external inputs: clamp hours,
collect the normalized items of every settled fetch, sort newest first,
de-duplicate by url, run the translate stage, group by genre and assemble
the 200 response.  `nowMs` is the `Date.now()` of the window computation,
`tlNow` the one of the translate stage, `genAt` the generated-at instant. -/
def runHandler (parseDate : String → Option Int) (isoOf : Int → String)
    (feeds : List Feed) (fetched : List (Except Unit (List RawEntry)))
    (provider : List String → Except Unit (List String)) (hasKey : Bool)
    (cache : TlCache) (nowMs tlNow : Int) (hoursQ : Option (Option ℚ))
    (genAt : String) : Response × TlCache :=
  let hours := clampHours hoursQ
  let since := sinceOf nowMs hours
  let allItems := collectItems parseDate isoOf since (feeds.zip fetched)
  let deduped := dedupe (sortDesc allItems)
  let tl := translateStage provider hasKey cache tlNow deduped
  ({ status := 200
     generatedAt := genAt
     hours := hours
     feedCount := feeds.length
     totalItems := deduped.length
     feedsLoaded := feeds
     genres := groupGenres tl.1 }, tl.2)

/-- All items of a response document, across genre buckets. -/
def respItems (r : Response) : List ItemOut :=
  (r.genres.map Prod.snd).flatten

/-- A settled fetch result with the failure forgotten: a failed feed
becomes a feed that returned no entries. -/
def settleOk (r : Except Unit (List RawEntry)) : Except Unit (List RawEntry) :=
  match r with
  | .error _ => .ok []
  | .ok es => .ok es

/-- One parsed CSV row of the remote feed list: a missing column reads as
`undefined` (`none`), which `?? ""` turns into the empty string. -/
structure CsvRow where
  enabled : Option String := none
  source : Option String := none
  url : Option String := none
  defaultGenre : Option String := none
deriving DecidableEq

/-- The per-row feed construction of `loadFeeds`. -/
def mkFeedRow (r : CsvRow) : Feed :=
  { source := trimStr (r.source.getD "")
    url := trimStr (r.url.getD "")
    defaultGenre :=
      let d := trimStr (r.defaultGenre.getD "Other")
      if d = "" then "Other" else d }

/-- The row-filtering pipeline of `loadFeeds`: keep a row unless its
enabled column, trimmed and uppercased, is FALSE; then build the feed and
drop feeds whose source or url is blank. -/
def loadFeedsRows (rows : List CsvRow) : List Feed :=
  ((rows.filter fun r => upperStr (trimStr (r.enabled.getD "")) ≠ "FALSE").map mkFeedRow).filter
    fun f => f.source ≠ "" && f.url ≠ ""

/-- The item with its translation fields cleared: two items with the same
core agree on everything except `titleJa`/`summaryJa`. -/
def coreOf (it : Item) : Item := { it with titleJa := none, summaryJa := none }

/-- The genre bucket an item list induces for one genre name. -/
def bucketOf (g : String) (l : List Item) : List ItemOut :=
  (l.filter fun it => pickGenre it.title it.source it.fallbackGenre == g).map stripItem

/-- Association lookup in the genre accumulator. -/
def findVal (g : String) : List (String × List ItemOut) → Option (List ItemOut)
  | [] => none
  | (k, xs) :: rest => if k = g then some xs else findVal g rest

/-- Optional-bucket append: absent stays absent only when nothing is
appended. -/
def optApp (o : Option (List ItemOut)) (ys : List ItemOut) : Option (List ItemOut) :=
  match o, ys with
  | none, [] => none
  | o, ys => some (o.getD [] ++ ys)

/-- Counts positions at which two item lists differ in their translation
fields. -/
def diffJaCount : List Item → List Item → Nat
  | [], _ => 0
  | _, [] => 0
  | a :: as, b :: bs =>
    (if a.titleJa = b.titleJa ∧ a.summaryJa = b.summaryJa then 0 else 1) + diffJaCount as bs

/-- Concrete items sharing a url, for exercising the de-duplication. -/
def sampleOld : Item :=
  { id := "S::u", title := "Old copy", url := "u", source := "S"
    publishedAt := some "2024-01-01T00:00:00.000Z", summary := none
    titleJa := none, summaryJa := none, fallbackGenre := "Rock" }

/-- The newer duplicate of [sampleOld]. -/
def sampleNew : Item :=
  { id := "T::u", title := "New copy", url := "u", source := "T"
    publishedAt := some "2024-02-01T00:00:00.000Z", summary := none
    titleJa := none, summaryJa := none, fallbackGenre := "Rock" }

/-- A concrete date parser for exercising the pipeline: only the string D
parses, to instant 100. -/
def samplePd (s : String) : Option Int := if s = "D" then some 100 else none

/-- A concrete ISO printer for exercising the pipeline. -/
def sampleIso (ms : Int) : String :=
  if ms = 100 then "2024-01-01T00:00:00.000Z" else "other"

/-- A concrete feed descriptor. -/
def sampleFeed : Feed := ⟨"Src", "http://feed", "Rock"⟩

/-- A concrete raw entry that survives normalization. -/
def sampleEntry : RawEntry :=
  { title := some "Hello", link := some "http://x", isoDate := some "D" }

/-- A concrete full run of the handler: one feed, one surviving entry, no
translation credential, a non-numeric hours parameter (NaN window bound,
which admits every parseable date). -/
def sampleRun : Response × TlCache :=
  runHandler samplePd sampleIso [sampleFeed] [.ok [sampleEntry]]
    (fun _ => .error ()) false [] 0 0 (some none) "G"

/-- The emitted form of the sample entry. -/
def sampleOut : ItemOut :=
  ⟨"Src::http://x", "Hello", "http://x", "Src",
    some "2024-01-01T00:00:00.000Z", none, none, none⟩

/-- A concrete translatable item for exercising the translation cache. -/
def sampleTl : Item :=
  { id := "i", title := "Hello world", url := "u2", source := "s"
    publishedAt := some "P", summary := none
    titleJa := none, summaryJa := none, fallbackGenre := "R" }

end MusicNews

namespace MusicNews

/-! ## Helper lemmas: genre classification -/

/-- Scanning the keywords of one rule returns the rule name exactly when
some keyword matches. -/
theorem findSome_keyword_eq (text : String) (kws : List String) (nm : String) :
    (kws.findSome? fun kw => if strIncludes text (lowerStr kw) then some nm else none)
      = if kws.any (fun kw => strIncludes text (lowerStr kw)) then some nm else none := by
  induction kws with
  | nil => rfl
  | cons k ks ih =>
    by_cases hk : strIncludes text (lowerStr k) = true
    · rw [List.findSome?_cons, if_pos hk, List.any_cons, hk]
      rfl
    · rw [List.findSome?_cons, if_neg hk, ih, List.any_cons,
        Bool.not_eq_true] at *
      rw [hk]
      rfl

/-- The nested rule-and-keyword scan is the first rule with a matching
keyword. -/
theorem genres_scan (text : String) (L : List (String × List String)) :
    (L.findSome? fun g =>
        g.2.findSome? fun kw => if strIncludes text (lowerStr kw) then some g.1 else none)
      = (L.find? fun g => g.2.any fun kw => strIncludes text (lowerStr kw)).map Prod.fst := by
  induction L with
  | nil => rfl
  | cons g gs ih =>
    by_cases hg : (g.2.any fun kw => strIncludes text (lowerStr kw)) = true
    · have hf := @List.find?_cons_of_pos _
        (fun g => g.2.any fun kw => strIncludes text (lowerStr kw)) g gs hg
      rw [List.findSome?_cons, findSome_keyword_eq, if_pos hg, hf]
      rfl
    · have hf := @List.find?_cons_of_neg _
        (fun g => g.2.any fun kw => strIncludes text (lowerStr kw)) g gs hg
      rw [List.findSome?_cons, findSome_keyword_eq, if_neg hg, hf]
      exact ih

/-- C4: pickGenre is the pure first-match scan: on the lowercased
title-space-source text it returns the name of the first rule (in declared
order) with an occurring keyword, else the non-empty fallback, else Other;
and the title Techno house crossover classifies as Techno even though a
House keyword also occurs. -/
theorem c4_pickGenre_first_match :
    (∀ t s fb, pickGenre t s fb =
        ((GENRES.find? fun g =>
            g.2.any fun kw => strIncludes (lowerStr (t ++ " " ++ s)) (lowerStr kw)).map
          Prod.fst).getD (if fb = "" then "Other" else fb)) ∧
    pickGenre "Techno house crossover" "Some Source" "" = "Techno" ∧
    pickGenre "zzz" "qqq" "Jazz" = "Jazz" ∧
    pickGenre "zzz" "qqq" "" = "Other" := by
  refine ⟨fun t s fb => ?_, by decide, by decide, by decide⟩
  simp only [pickGenre]
  rw [genres_scan]
  cases h : (GENRES.find? fun g =>
      g.2.any fun kw => strIncludes (lowerStr (t ++ " " ++ s)) (lowerStr kw)) <;> simp

/-! ## C1: the hours parameter -/

/-- C1 counterexample: a present but non-numeric hours parameter
(`Number(...)` = NaN) propagates NaN through the min/max clamp — the
handler does not fall back to 24 for invalid input, only for absent
input. -/
theorem c1_counterexample :
    clampHours (some none) = none ∧ clampHours (some none) ≠ some 24 := by
  decide

/-- C1 amended: an absent hours parameter defaults to 24; a numeric hours
parameter is clamped into [1,72] (fractional values are kept as-is, not
rounded); a non-numeric hours parameter yields NaN, which is used
unclamped (and serializes as null). -/
theorem c1_hours_clamped :
    clampHours none = some 24 ∧
    clampHours (some none) = none ∧
    (∀ x : ℚ, ∃ y : ℚ, clampHours (some (some x)) = some y ∧ 1 ≤ y ∧ y ≤ 72) := by
  refine ⟨rfl, rfl, fun x => ⟨max 1 (min 72 x), rfl, le_max_left _ _, ?_⟩⟩
  exact max_le (by norm_num) (min_le_left _ _)

/-! ## C8: the response document shape -/

/-- C8 counterexample: the JSON object passed to res.status(200).json has
six keys, not the three the claim lists — feedCount, totalItems and
feedsLoaded are also emitted. -/
theorem c8_counterexample :
    responseKeys ≠ ["generatedAt", "hours", "genres"] := by decide

/-- C8 amended: the 200 response consists of generatedAt, the echoed
hours, the diagnostic fields feedCount, totalItems and feedsLoaded, and
the genres mapping; each emitted item exposes exactly id, title, url,
source, publishedAt, summary and the optional titleJa/summaryJa, with the
internal fallbackGenre stripped (the emission of an item ignores its
fallbackGenre and preserves every other field). -/
theorem c8_response_shape :
    responseKeys = ["generatedAt", "hours", "feedCount", "totalItems",
      "feedsLoaded", "genres"] ∧
    (∀ it g, stripItem { it with fallbackGenre := g } = stripItem it) ∧
    (∀ it, (stripItem it).id = it.id ∧ (stripItem it).title = it.title ∧
      (stripItem it).url = it.url ∧ (stripItem it).source = it.source ∧
      (stripItem it).publishedAt = it.publishedAt ∧
      (stripItem it).summary = it.summary ∧
      (stripItem it).titleJa = it.titleJa ∧
      (stripItem it).summaryJa = it.summaryJa) ∧
    (∀ pd iso feeds fetched pr hk cache nowMs tlNow hq gen,
      (runHandler pd iso feeds fetched pr hk cache nowMs tlNow hq gen).1.genres
        = groupGenres (translateStage pr hk cache tlNow
            (dedupe (sortDesc (collectItems pd iso (sinceOf nowMs (clampHours hq))
              (feeds.zip fetched))))).1) := by
  exact ⟨rfl, fun it g => rfl,
    fun it => ⟨rfl, rfl, rfl, rfl, rfl, rfl, rfl, rfl⟩,
    fun pd iso feeds fetched pr hk cache nowMs tlNow hq gen => rfl⟩

/-! ## C9: the remote feed-list filter -/

/-- C9 counterexample: the exclusion test uppercases the trimmed enabled
cell, so the row value false — which is not the literal FALSE — is also
excluded, against the claim that every value other than the literal FALSE
keeps the row; the same row with another value is kept. -/
theorem c9_counterexample :
    loadFeedsRows [{ enabled := some "false", source := some "S", url := some "U" }]
        = [] ∧
    (some "false" : Option String) ≠ some "FALSE" ∧
    loadFeedsRows [{ enabled := some "TRUE", source := some "S", url := some "U" }]
        = [{ source := "S", url := "U", defaultGenre := "Other" }] := by
  decide

/-- C9 amended: a row is excluded exactly when its enabled cell, trimmed
and uppercased, equals FALSE (so any case/whitespace variant of false is
excluded); any other value, including blank or a missing column, keeps the
row, and rows whose trimmed source or url is empty are then dropped. -/
theorem c9_enabled_filter :
    ∀ f rows, f ∈ loadFeedsRows rows ↔
      ∃ r ∈ rows, upperStr (trimStr (r.enabled.getD "")) ≠ "FALSE" ∧ mkFeedRow r = f ∧
        f.source ≠ "" ∧ f.url ≠ "" := by
  intro f rows
  simp only [loadFeedsRows, List.mem_filter, List.mem_map, Bool.and_eq_true,
    decide_eq_true_eq]
  constructor
  · rintro ⟨⟨r, hr, rfl⟩, h1, h2⟩
    exact ⟨r, hr.1, hr.2, rfl, h1, h2⟩
  · rintro ⟨r, hr, hen, rfl, h1, h2⟩
    exact ⟨⟨r, ⟨hr, hen⟩, rfl⟩, h1, h2⟩

/-! ## Helper lemmas: the code-point order -/

/-- Totality of the lexicographic code-point order. -/
theorem charListLe_total : ∀ as bs : List Char,
    charListLe as bs = true ∨ charListLe bs as = true := by
  intro as
  induction as with
  | nil => intro bs; left; rfl
  | cons a as1 ih =>
    intro bs
    cases bs with
    | nil => right; rfl
    | cons b bs1 =>
      rcases lt_trichotomy a b with h | h | h
      · left; simp [charListLe, h]
      · subst h
        rcases ih bs1 with h2 | h2
        · left; simp [charListLe, lt_irrefl, h2]
        · right; simp [charListLe, lt_irrefl, h2]
      · right; simp [charListLe, h]

/-- Transitivity of the lexicographic code-point order. -/
theorem charListLe_trans : ∀ as bs cs : List Char,
    charListLe as bs = true → charListLe bs cs = true → charListLe as cs = true := by
  intro as
  induction as with
  | nil => intro bs cs h1 h2; rfl
  | cons a as1 ih =>
    intro bs cs h1 h2
    cases bs with
    | nil => simp [charListLe] at h1
    | cons b bs1 =>
      cases cs with
      | nil => simp [charListLe] at h2
      | cons c cs1 =>
        rcases lt_trichotomy a b with hab | hab | hab
        · rcases lt_trichotomy b c with hbc | hbc | hbc
          · simp [charListLe, lt_trans hab hbc]
          · subst hbc; simp [charListLe, hab]
          · simp [charListLe, hbc, lt_asymm hbc] at h2
        · subst hab
          simp only [charListLe, lt_irrefl, if_false] at h1
          rcases lt_trichotomy a c with hac | hac | hac
          · simp [charListLe, hac]
          · subst hac
            simp only [charListLe, lt_irrefl, if_false] at h2 ⊢
            exact ih bs1 cs1 h1 h2
          · simp [charListLe, hac, lt_asymm hac] at h2
        · simp [charListLe, hab, lt_asymm hab] at h1

/-- Totality of the string comparison. -/
theorem strLe_total (a b : String) : strLe a b = true ∨ strLe b a = true :=
  charListLe_total a.toList b.toList

/-- Transitivity of the string comparison. -/
theorem strLe_trans {a b c : String} (h1 : strLe a b = true) (h2 : strLe b c = true) :
    strLe a c = true :=
  charListLe_trans a.toList b.toList c.toList h1 h2

/-! ## Helper lemmas: sorting -/

/-- Membership in an insertion. -/
theorem mem_insertDesc (x y : Item) (l : List Item) :
    y ∈ insertDesc x l ↔ y = x ∨ y ∈ l := by
  induction l with
  | nil => simp [insertDesc]
  | cons z zs ih =>
    by_cases h : strLe (sortKey z) (sortKey x) = true
    · simp [insertDesc, h]
    · simp [insertDesc, h, ih]
      tauto

/-- Membership is preserved by the sort. -/
theorem mem_sortDesc (y : Item) (l : List Item) : y ∈ sortDesc l ↔ y ∈ l := by
  induction l with
  | nil => simp [sortDesc]
  | cons x xs ih =>
    show y ∈ insertDesc x (sortDesc xs) ↔ _
    rw [mem_insertDesc, ih]
    simp

/-- Inserting into a descending list keeps it descending. -/
theorem sorted_insertDesc (x : Item) (l : List Item)
    (h : l.Pairwise fun a b => strLe (sortKey b) (sortKey a) = true) :
    (insertDesc x l).Pairwise fun a b => strLe (sortKey b) (sortKey a) = true := by
  induction l with
  | nil => simp [insertDesc]
  | cons y ys ih =>
    rw [List.pairwise_cons] at h
    by_cases hyx : strLe (sortKey y) (sortKey x) = true
    · rw [insertDesc, if_pos hyx, List.pairwise_cons]
      refine ⟨?_, List.pairwise_cons.mpr h⟩
      intro z hz
      rcases List.mem_cons.mp hz with rfl | hz2
      · exact hyx
      · exact strLe_trans (h.1 z hz2) hyx
    · rw [insertDesc, if_neg hyx, List.pairwise_cons]
      refine ⟨?_, ih h.2⟩
      intro z hz
      rcases (mem_insertDesc x z ys).mp hz with rfl | hz2
      · rcases strLe_total (sortKey y) (sortKey z) with hyz | hyz
        · exact absurd hyz hyx
        · exact hyz
      · exact h.1 z hz2

/-- The sorted sequence is descending in the publish key. -/
theorem sorted_sortDesc (l : List Item) :
    (sortDesc l).Pairwise fun a b => strLe (sortKey b) (sortKey a) = true := by
  induction l with
  | nil => simp [sortDesc]
  | cons x xs ih => exact sorted_insertDesc x (sortDesc xs) ih

/-! ## Helper lemmas: de-duplication -/

/-- The de-duplicated list is a sublist of its input. -/
theorem dedupeAux_sublist (seen : List String) (l : List Item) :
    (dedupeAux seen l).Sublist l := by
  induction l generalizing seen with
  | nil => simp [dedupeAux]
  | cons x xs ih =>
    by_cases h : x.url ∈ seen
    · rw [dedupeAux, if_pos h]
      exact (ih seen).cons x
    · rw [dedupeAux, if_neg h]
      exact (ih (x.url :: seen)).cons₂ x

/-- Every surviving item avoids the seen set and is the first occurrence
of its url in the input. -/
theorem mem_dedupeAux (x : Item) : ∀ (seen : List String) (l : List Item),
    x ∈ dedupeAux seen l →
      x.url ∉ seen ∧ l.find? (fun y => y.url == x.url) = some x := by
  intro seen l
  induction l generalizing seen with
  | nil => simp [dedupeAux]
  | cons z zs ih =>
    intro hx
    by_cases h : z.url ∈ seen
    · rw [dedupeAux, if_pos h] at hx
      obtain ⟨hns, hf⟩ := ih seen hx
      have hne : (z.url == x.url) = false := by
        rcases hbe : z.url == x.url with _ | _
        · rfl
        · exact absurd (beq_iff_eq.mp hbe ▸ h) hns
      refine ⟨hns, ?_⟩
      rw [List.find?_cons, hne]
      exact hf
    · rw [dedupeAux, if_neg h] at hx
      rcases List.mem_cons.mp hx with rfl | hx2
      · refine ⟨h, ?_⟩
        rw [List.find?_cons, beq_self_eq_true x.url]
      · obtain ⟨hns, hf⟩ := ih (z.url :: seen) hx2
        have hzx : z.url ≠ x.url := fun he => hns (he ▸ List.mem_cons_self _ _)
        have hne : (z.url == x.url) = false := by
          rcases hbe : z.url == x.url with _ | _
          · rfl
          · exact absurd (beq_iff_eq.mp hbe) hzx
        refine ⟨fun hs => hns (List.mem_cons_of_mem _ hs), ?_⟩
        rw [List.find?_cons, hne]
        exact hf

/-- No two items of the de-duplicated list share a url. -/
theorem dedupeAux_pairwise_ne (seen : List String) (l : List Item) :
    (dedupeAux seen l).Pairwise fun a b => a.url ≠ b.url := by
  induction l generalizing seen with
  | nil => simp [dedupeAux]
  | cons z zs ih =>
    by_cases h : z.url ∈ seen
    · rw [dedupeAux, if_pos h]
      exact ih seen
    · rw [dedupeAux, if_neg h, List.pairwise_cons]
      refine ⟨?_, ih (z.url :: seen)⟩
      intro x hx
      have := (mem_dedupeAux x (z.url :: seen) zs hx).1
      exact fun he => this (he ▸ List.mem_cons_self _ _)

/-- In a descending list, a find-first hit bounds the key of every later
match. -/
theorem sorted_first_newest {p : Item → Bool} : ∀ (l : List Item) (x : Item),
    (l.Pairwise fun a b => strLe (sortKey b) (sortKey a) = true) →
    l.find? p = some x → ∀ y ∈ l, p y = true → strLe (sortKey y) (sortKey x) = true := by
  intro l
  induction l with
  | nil => intro x _ hf; simp [List.find?] at hf
  | cons z zs ih =>
    intro x hs hf y hy hpy
    rw [List.pairwise_cons] at hs
    rcases hpz : p z with _ | _
    · rw [List.find?_cons, hpz] at hf
      rcases List.mem_cons.mp hy with rfl | hy2
      · rw [hpy] at hpz; exact absurd hpz (by simp)
      · exact ih x hs.2 hf y hy2 hpy
    · rw [List.find?_cons, hpz] at hf
      obtain rfl : z = x := by injection hf
      rcases List.mem_cons.mp hy with rfl | hy2
      · rcases strLe_total (sortKey y) (sortKey y) with h | h <;> exact h
      · exact hs.1 y hy2

/-! ## C2: de-duplication by url -/

/-- C2: after the descending sort, no two de-duplicated items share a url;
every kept item is the first occurrence of its url in the sorted sequence,
comes from the input, and its publish key dominates (in the comparator
order) the key of every input item with the same url — among duplicates
the newest-published copy is retained. -/
theorem c2_dedupe_newest (l : List Item) :
    ((dedupe (sortDesc l)).Pairwise fun a b => a.url ≠ b.url) ∧
    ∀ x ∈ dedupe (sortDesc l),
      (sortDesc l).find? (fun y => y.url == x.url) = some x ∧
      x ∈ l ∧
      ∀ y ∈ l, y.url = x.url → strLe (sortKey y) (sortKey x) = true := by
  refine ⟨dedupeAux_pairwise_ne [] (sortDesc l), fun x hx => ?_⟩
  obtain ⟨-, hf⟩ := mem_dedupeAux x [] (sortDesc l) hx
  have hxl : x ∈ l := (mem_sortDesc x l).mp (List.mem_of_find?_eq_some hf)
  refine ⟨hf, hxl, fun y hy hyx => ?_⟩
  exact sorted_first_newest (sortDesc l) x (sorted_sortDesc l) hf y
    ((mem_sortDesc y l).mpr hy) (beq_iff_eq.mpr hyx)

/-- C2 witness: on a two-item input sharing a url, the newer copy is the
one kept and its key dominates the older one. -/
theorem c2_dedupe_newest_witness :
    sampleNew ∈ dedupe (sortDesc [sampleOld, sampleNew]) ∧
    strLe (sortKey sampleOld) (sortKey sampleNew) = true :=
  ⟨by decide,
    ((c2_dedupe_newest [sampleOld, sampleNew]).2 sampleNew (by decide)).2.2
      sampleOld (by decide) (by decide)⟩

/-! ## Helper lemmas: grouping by genre -/

/-- Effect of one push on the bucket lookup. -/
theorem findVal_pushGenre (acc : List (String × List ItemOut)) (g g0 : String)
    (x : ItemOut) :
    findVal g (pushGenre acc g0 x)
      = if g0 = g then some ((findVal g acc).getD [] ++ [x]) else findVal g acc := by
  induction acc with
  | nil =>
    by_cases h : g0 = g
    · simp [pushGenre, findVal, h]
    · simp [pushGenre, findVal, h]
  | cons p rest ih =>
    obtain ⟨k, xs⟩ := p
    by_cases hk0 : k = g0
    · subst hk0
      by_cases hg : k = g
      · subst hg
        simp [pushGenre, findVal]
      · simp [pushGenre, findVal, hg]
    · by_cases hg : k = g
      · subst hg
        have hne : ¬ g0 = k := fun hh => hk0 hh.symm
        simp [pushGenre, findVal, hk0, hne]
      · simp [pushGenre, findVal, hk0, hg, ih]

/-- Appending one element then a list to an optional bucket. -/
theorem optApp_snoc (o : Option (List ItemOut)) (x : ItemOut) (ys : List ItemOut) :
    optApp (optApp o [x]) ys = optApp o (x :: ys) := by
  cases o <;> cases ys <;> simp [optApp]

/-- Appending a single element to an optional bucket. -/
theorem optApp_single (o : Option (List ItemOut)) (x : ItemOut) :
    optApp o [x] = some (o.getD [] ++ [x]) := by
  cases o <;> simp [optApp]

/-- The bucket of a cons. -/
theorem bucketOf_cons (g : String) (it : Item) (l : List Item) :
    bucketOf g (it :: l)
      = if pickGenre it.title it.source it.fallbackGenre = g
        then stripItem it :: bucketOf g l else bucketOf g l := by
  by_cases h : pickGenre it.title it.source it.fallbackGenre = g
  · simp [bucketOf, List.filter_cons, h]
  · simp [bucketOf, List.filter_cons, h]

/-- The grouping fold fills each bucket with exactly the classified,
emitted items, in input order. -/
theorem findVal_foldl (g : String) : ∀ (l : List Item) (acc : List (String × List ItemOut)),
    findVal g (List.foldl groupStep acc l) = optApp (findVal g acc) (bucketOf g l) := by
  intro l
  induction l with
  | nil =>
    intro acc
    cases h : findVal g acc <;> simp [optApp, bucketOf, h]
  | cons it l1 ih =>
    intro acc
    rw [List.foldl_cons, ih, groupStep, findVal_pushGenre, bucketOf_cons]
    by_cases h : pickGenre it.title it.source it.fallbackGenre = g
    · rw [if_pos h, if_pos h, ← optApp_snoc, optApp_single]
    · rw [if_neg h, if_neg h]

/-- Keys produced by a push come from the accumulator or are the pushed
genre. -/
theorem mem_pushGenre_key (acc : List (String × List ItemOut)) (g0 : String)
    (x : ItemOut) : ∀ p ∈ pushGenre acc g0 x, p.1 = g0 ∨ p.1 ∈ acc.map Prod.fst := by
  induction acc with
  | nil =>
    intro p hp
    rw [pushGenre, List.mem_singleton] at hp
    subst hp
    exact Or.inl rfl
  | cons q rest ih =>
    obtain ⟨k, xs⟩ := q
    intro p hp
    by_cases hk : k = g0
    · subst hk
      rw [pushGenre, if_pos rfl] at hp
      rcases List.mem_cons.mp hp with rfl | hp2
      · exact Or.inl rfl
      · exact Or.inr (List.mem_cons_of_mem _ (List.mem_map_of_mem _ hp2))
    · rw [pushGenre, if_neg hk] at hp
      rcases List.mem_cons.mp hp with rfl | hp2
      · exact Or.inr (List.mem_cons_self _ _)
      · rcases ih p hp2 with h1 | h1
        · exact Or.inl h1
        · exact Or.inr (List.mem_cons_of_mem _ h1)

/-- A push keeps the bucket keys pairwise distinct. -/
theorem pairwise_keys_pushGenre (acc : List (String × List ItemOut)) (g0 : String)
    (x : ItemOut) (h : acc.Pairwise fun a b => a.1 ≠ b.1) :
    (pushGenre acc g0 x).Pairwise fun a b => a.1 ≠ b.1 := by
  induction acc with
  | nil => simp [pushGenre]
  | cons q rest ih =>
    obtain ⟨k, xs⟩ := q
    rw [List.pairwise_cons] at h
    by_cases hk : k = g0
    · subst hk
      rw [pushGenre, if_pos rfl, List.pairwise_cons]
      exact ⟨fun b hb => h.1 b hb, h.2⟩
    · rw [pushGenre, if_neg hk, List.pairwise_cons]
      refine ⟨?_, ih h.2⟩
      intro b hb
      rcases mem_pushGenre_key rest g0 x b hb with h1 | h1
      · rw [h1]; exact hk
      · obtain ⟨q2, hq2, hq2e⟩ := List.mem_map.mp h1
        rw [← hq2e]
        exact h.1 q2 hq2

/-- The grouping fold keeps bucket keys pairwise distinct. -/
theorem pairwise_keys_foldl : ∀ (l : List Item) (acc : List (String × List ItemOut)),
    (acc.Pairwise fun a b => a.1 ≠ b.1) →
    (List.foldl groupStep acc l).Pairwise fun a b => a.1 ≠ b.1 := by
  intro l
  induction l with
  | nil => intro acc h; exact h
  | cons it l1 ih =>
    intro acc h
    exact ih _ (pairwise_keys_pushGenre acc _ _ h)

/-- With distinct keys, membership determines the lookup. -/
theorem findVal_of_mem : ∀ (acc : List (String × List ItemOut)) (g : String)
    (is : List ItemOut), (acc.Pairwise fun a b => a.1 ≠ b.1) → (g, is) ∈ acc →
    findVal g acc = some is := by
  intro acc
  induction acc with
  | nil => intro g is _ hm; simp at hm
  | cons q rest ih =>
    obtain ⟨k, xs⟩ := q
    intro g is h hm
    rw [List.pairwise_cons] at h
    rcases List.mem_cons.mp hm with he | hm2
    · obtain ⟨rfl, rfl⟩ := Prod.mk.inj he.symm
      simp [findVal]
    · have hkg : k ≠ g := by
        have := h.1 (g, is) hm2
        simpa using this
      rw [findVal, if_neg hkg]
      exact ih g is h.2 hm2

/-- A genre present in the grouped mapping holds exactly its (non-empty)
bucket. -/
theorem group_mem_bucket {g : String} {is : List ItemOut} {l : List Item}
    (h : (g, is) ∈ groupGenres l) : is = bucketOf g l ∧ is ≠ [] := by
  have hpw : (groupGenres l).Pairwise fun a b => a.1 ≠ b.1 :=
    pairwise_keys_foldl l [] (by simp)
  have hfv := findVal_of_mem (groupGenres l) g is hpw h
  rw [groupGenres, findVal_foldl] at hfv
  cases hb : bucketOf g l with
  | nil =>
    rw [hb] at hfv
    simp [optApp, findVal] at hfv
  | cons b bs =>
    rw [hb] at hfv
    simp only [optApp, findVal] at hfv
    obtain rfl := (Option.some.injEq _ _).mp hfv
    exact ⟨rfl, by simp⟩

/-- Every emitted item of the grouped mapping is the emission of an input
item. -/
theorem mem_group_flatten {x : ItemOut} {l : List Item}
    (h : x ∈ ((groupGenres l).map Prod.snd).flatten) :
    ∃ it ∈ l, stripItem it = x := by
  rw [List.mem_flatten] at h
  obtain ⟨is, his, hx⟩ := h
  rw [List.mem_map] at his
  obtain ⟨p, hp, rfl⟩ := his
  obtain ⟨k, xs⟩ := p
  obtain ⟨hbk, -⟩ := group_mem_bucket hp
  rw [hbk, bucketOf, List.mem_map] at hx
  obtain ⟨it, hit, rfl⟩ := hx
  exact ⟨it, (List.mem_filter.mp hit).1, rfl⟩

/-! ## Helper lemmas: the translate stage as an assignment -/

/-- Assigning translations does not change an item's core. -/
theorem coreOf_setJa (it : Item) (p : Option String × Option String) :
    coreOf (setJa it p) = coreOf it := rfl

/-- The translation replay keeps every field but the translations. -/
theorem applyAssign_map_core (a : List (Nat × (Option String × Option String))) :
    ∀ (c : Nat) (l : List Item), (applyAssign a c l).map coreOf = l.map coreOf := by
  intro c l
  induction l generalizing c with
  | nil => rfl
  | cons it rest ih =>
    by_cases h : looksEnglish it.title = true
    · rw [applyAssign, if_pos h]
      cases lookupNat c a with
      | none => simp [ih]
      | some p => simp [ih, coreOf_setJa]
    · rw [applyAssign, if_neg h]
      simp [ih]

/-- Every item of the replayed list agrees with some input item on
everything but the translations. -/
theorem mem_applyAssign_core {a : List (Nat × (Option String × Option String))}
    {c : Nat} {l : List Item} {it : Item} (h : it ∈ applyAssign a c l) :
    ∃ it0 ∈ l, coreOf it = coreOf it0 := by
  have hm : coreOf it ∈ (applyAssign a c l).map coreOf := List.mem_map_of_mem _ h
  rw [applyAssign_map_core] at hm
  obtain ⟨it0, h0, he⟩ := List.mem_map.mp hm
  exact ⟨it0, h0, he.symm⟩

/-- A descending order transfers along core-equality of the lists. -/
theorem pairwise_key_transfer {l1 l2 : List Item}
    (h : l1.map coreOf = l2.map coreOf)
    (hp : l2.Pairwise fun a b => strLe (sortKey b) (sortKey a) = true) :
    l1.Pairwise fun a b => strLe (sortKey b) (sortKey a) = true := by
  have hk : l1.map sortKey = l2.map sortKey := by
    have h1 : l1.map sortKey = (l1.map coreOf).map sortKey := by
      rw [List.map_map]; rfl
    have h2 : l2.map sortKey = (l2.map coreOf).map sortKey := by
      rw [List.map_map]; rfl
    rw [h1, h2, h]
  have hp2 : (l2.map sortKey).Pairwise fun u v => strLe v u = true :=
    List.pairwise_map.mpr hp
  rw [← hk] at hp2
  exact List.pairwise_map.mp hp2

/-- The probe partitions the candidates between hits and misses and queues
two texts per miss. -/
theorem probeCache_partition (cache : TlCache) (now : Int) :
    ∀ (i : Nat) (ts : List Item),
      (probeCache cache now i ts).1.length + (probeCache cache now i ts).2.1.length
          = ts.length ∧
      (probeCache cache now i ts).2.2.length
          = 2 * (probeCache cache now i ts).2.1.length := by
  intro i ts
  induction ts generalizing i with
  | nil => simp [probeCache]
  | cons t ts1 ih =>
    obtain ⟨ih1, ih2⟩ := ih (i + 1)
    rcases hget : cacheGet cache (keyOf t) with _ | e
    · simp only [probeCache, hget, List.length_cons]
      omega
    · by_cases hl : now - e.t < TL_TTL_MS
      · simp only [probeCache, hget, if_pos hl, List.length_cons]
        omega
      · simp only [probeCache, hget, if_neg hl, List.length_cons]
        omega

/-- One write-back result per miss. -/
theorem freshResults_length (now : Int) (out : List String) :
    ∀ (k : Nat) (ms : List (Nat × String)),
      (freshResults now out k ms).1.length = ms.length := by
  intro k ms
  induction ms generalizing k with
  | nil => rfl
  | cons m ms1 ih => simp [freshResults, ih]

/-- The limited candidate list respects the translation limit. -/
theorem limitedOf_length_le (l : List Item) :
    (limitedOf l).length ≤ TRANSLATE_LIMIT := by
  rw [limitedOf, List.length_take]
  exact min_le_left _ _

/-- The items the translate stage returns are the replay of some
assignment of at most TRANSLATE_LIMIT positions over the input. -/
theorem translateStage_assign (pr : List String → Except Unit (List String))
    (hk : Bool) (cache : TlCache) (now : Int) (l : List Item) :
    ∃ a, (translateStage pr hk cache now l).1 = applyAssign a 0 l ∧
      a.length ≤ TRANSLATE_LIMIT := by
  have hpart := (probeCache_partition cache now 0 (limitedOf l)).1
  have hlim := limitedOf_length_le l
  simp only [translateStage]
  split
  · split
    · split
      · refine ⟨_, rfl, ?_⟩
        rw [List.length_append, freshResults_length]
        omega
      · exact ⟨_, rfl, by omega⟩
    · exact ⟨_, rfl, by omega⟩
  · exact ⟨_, rfl, by omega⟩

/-! ## C10: genre bucket invariants -/

/-- C10: in every assembled response, each genre key maps to a non-empty
item list (a bucket exists only because some item was pushed to it) and
the items of each bucket are in non-increasing publishedAt order, the
order inherited from the deduplicated newest-first sequence. -/
theorem c10_genre_buckets :
    ∀ pd iso feeds fetched pr hk cache nowMs tlNow hq gen p,
      p ∈ (runHandler pd iso feeds fetched pr hk cache nowMs tlNow hq gen).1.genres →
      p.2 ≠ [] ∧ p.2.Pairwise fun a b =>
        strLe (b.publishedAt.getD "") (a.publishedAt.getD "") = true := by
  intro pd iso feeds fetched pr hk cache nowMs tlNow hq gen p hp
  obtain ⟨g, is⟩ := p
  have hp2 : (g, is) ∈ groupGenres ((translateStage pr hk cache tlNow
      (dedupe (sortDesc (collectItems pd iso (sinceOf nowMs (clampHours hq))
        (feeds.zip fetched))))).1) := hp
  obtain ⟨hbk, hne⟩ := group_mem_bucket hp2
  refine ⟨hne, ?_⟩
  obtain ⟨a, ha, -⟩ := translateStage_assign pr hk cache tlNow
    (dedupe (sortDesc (collectItems pd iso (sinceOf nowMs (clampHours hq))
      (feeds.zip fetched))))
  have hsorted : (dedupe (sortDesc (collectItems pd iso (sinceOf nowMs (clampHours hq))
      (feeds.zip fetched)))).Pairwise fun a b => strLe (sortKey b) (sortKey a) = true :=
    List.Pairwise.sublist (dedupeAux_sublist [] _) (sorted_sortDesc _)
  have htl : ((translateStage pr hk cache tlNow
      (dedupe (sortDesc (collectItems pd iso (sinceOf nowMs (clampHours hq))
        (feeds.zip fetched))))).1).Pairwise
      fun a b => strLe (sortKey b) (sortKey a) = true := by
    rw [ha]
    exact pairwise_key_transfer (applyAssign_map_core a 0 _) hsorted
  rw [hbk, bucketOf]
  have hfil := htl.filter fun it => pickGenre it.title it.source it.fallbackGenre == g
  exact List.pairwise_map.mpr hfil

/-- C10 witness: the sample run yields one genre, Rock, with one item,
trivially non-empty and ordered. -/
theorem c10_genre_buckets_witness :
    (("Rock", [sampleOut]) : String × List ItemOut).2 ≠ [] ∧
    (("Rock", [sampleOut]) : String × List ItemOut).2.Pairwise fun a b =>
      strLe (b.publishedAt.getD "") (a.publishedAt.getD "") = true :=
  c10_genre_buckets samplePd sampleIso [sampleFeed] [.ok [sampleEntry]]
    (fun _ => .error ()) false [] 0 0 (some none) "G" ("Rock", [sampleOut]) (by decide)

/-! ## Helper lemmas: normalization -/

/-- What holds of every item normalization produces: non-blank title and
url, a publish instant that parsed and passed the window test, the printed
instant as publishedAt, and no translations yet. -/
theorem normalize_some_fields {pd : String → Option Int} {iso : Int → String}
    {since : Option ℚ} {f : Feed} {e : RawEntry} {it : Item}
    (h : normalize pd iso since f e = some it) :
    it.title ≠ "" ∧ it.url ≠ "" ∧
      it.titleJa = none ∧ it.summaryJa = none ∧
      ∃ ms : Int, it.publishedAt = some (iso ms) ∧ msBelowSince ms since = false := by
  rw [normalize] at h
  rcases h1 : firstTruthy [e.isoDate, e.pubDate, e.published, e.updated] with _ | raw
  · rw [h1] at h
    exact absurd h (by simp)
  · rw [h1] at h
    dsimp only at h
    rcases h2 : pd raw with _ | ms
    · rw [h2] at h
      exact absurd h (by simp)
    · rw [h2] at h
      dsimp only at h
      by_cases h3 : msBelowSince ms since = true
      · rw [if_pos h3] at h
        exact absurd h (by simp)
      · rw [if_neg h3] at h
        by_cases h4 : trimStr ((e.title).getD "") = "" ∨
            trimStr ((firstTruthy [e.link, e.guid]).getD "") = ""
        · rw [if_pos h4] at h
          exact absurd h (by simp)
        · rw [if_neg h4] at h
          obtain rfl := (Option.some.injEq _ _).mp h
          push_neg at h4
          exact ⟨h4.1, h4.2, rfl, rfl, ms, rfl, by rwa [Bool.not_eq_true] at h3⟩

/-- The discard side of normalization: a missing or unparseable date, a
too-old instant, or a blank title or url yields no item. -/
theorem normalize_none_cases (pd : String → Option Int) (iso : Int → String)
    (since : Option ℚ) (f : Feed) (e : RawEntry) :
    (firstTruthy [e.isoDate, e.pubDate, e.published, e.updated] = none →
      normalize pd iso since f e = none) ∧
    (∀ raw, firstTruthy [e.isoDate, e.pubDate, e.published, e.updated] = some raw →
      pd raw = none → normalize pd iso since f e = none) ∧
    (∀ raw ms, firstTruthy [e.isoDate, e.pubDate, e.published, e.updated] = some raw →
      pd raw = some ms → msBelowSince ms since = true →
      normalize pd iso since f e = none) ∧
    (trimStr ((e.title).getD "") = "" ∨
        trimStr ((firstTruthy [e.link, e.guid]).getD "") = "" →
      normalize pd iso since f e = none) := by
  refine ⟨fun h1 => ?_, fun raw h1 h2 => ?_, fun raw ms h1 h2 h3 => ?_, fun h4 => ?_⟩
  · rw [normalize, h1]
  · rw [normalize, h1]
    dsimp only
    rw [h2]
  · rw [normalize, h1]
    dsimp only
    rw [h2]
    dsimp only
    rw [if_pos h3]
  · rw [normalize]
    rcases h1 : firstTruthy [e.isoDate, e.pubDate, e.published, e.updated] with _ | raw
    · rfl
    · dsimp only
      rcases h2 : pd raw with _ | ms
      · rfl
      · dsimp only
        by_cases h3 : msBelowSince ms since = true
        · rw [if_pos h3]
        · rw [if_neg h3, if_pos h4]

/-- Every collected item is the normalization of some fetched entry. -/
theorem mem_collectItems {pd : String → Option Int} {iso : Int → String}
    {since : Option ℚ} {pairs : List (Feed × Except Unit (List RawEntry))} {it : Item}
    (h : it ∈ collectItems pd iso since pairs) :
    ∃ f e, normalize pd iso since f e = some it := by
  rw [collectItems, List.mem_flatMap] at h
  obtain ⟨p, hp, hin⟩ := h
  rcases hr : p.2 with er | entries
  · rw [hr] at hin
    simp at hin
  · rw [hr] at hin
    rw [List.mem_filterMap] at hin
    obtain ⟨e, he, hn⟩ := hin
    exact ⟨p.1, e, hn⟩

/-! ## C5: response items respect the window and required fields -/

/-- C5: every item of a response has a non-blank title and url and a
publishedAt printed from a parsed instant that is not below the window
bound (computed from the request instant and the clamped hours); and
normalization discards entries with missing or unparseable dates, with
instants below the bound, or with blank title or url. -/
theorem c5_window_and_required_fields (pd : String → Option Int) (iso : Int → String) :
    (∀ feeds fetched pr hk cache nowMs tlNow hq gen x,
      x ∈ respItems (runHandler pd iso feeds fetched pr hk cache nowMs tlNow hq gen).1 →
      x.title ≠ "" ∧ x.url ≠ "" ∧
        ∃ ms : Int, x.publishedAt = some (iso ms) ∧
          msBelowSince ms (sinceOf nowMs (clampHours hq)) = false) ∧
    (∀ since f e, firstTruthy [e.isoDate, e.pubDate, e.published, e.updated] = none →
      normalize pd iso since f e = none) ∧
    (∀ since f e raw, firstTruthy [e.isoDate, e.pubDate, e.published, e.updated] = some raw →
      pd raw = none → normalize pd iso since f e = none) ∧
    (∀ since f e raw ms,
      firstTruthy [e.isoDate, e.pubDate, e.published, e.updated] = some raw →
      pd raw = some ms → msBelowSince ms since = true →
      normalize pd iso since f e = none) ∧
    (∀ since f e, (trimStr ((e.title).getD "") = "" ∨
        trimStr ((firstTruthy [e.link, e.guid]).getD "") = "") →
      normalize pd iso since f e = none) := by
  refine ⟨?_, fun since f e => (normalize_none_cases pd iso since f e).1,
    fun since f e => (normalize_none_cases pd iso since f e).2.1,
    fun since f e => (normalize_none_cases pd iso since f e).2.2.1,
    fun since f e => (normalize_none_cases pd iso since f e).2.2.2⟩
  intro feeds fetched pr hk cache nowMs tlNow hq gen x hx
  have hx2 : x ∈ ((groupGenres ((translateStage pr hk cache tlNow
      (dedupe (sortDesc (collectItems pd iso (sinceOf nowMs (clampHours hq))
        (feeds.zip fetched))))).1)).map Prod.snd).flatten := hx
  obtain ⟨it, hit, rfl⟩ := mem_group_flatten hx2
  obtain ⟨a, ha, -⟩ := translateStage_assign pr hk cache tlNow
    (dedupe (sortDesc (collectItems pd iso (sinceOf nowMs (clampHours hq))
      (feeds.zip fetched))))
  rw [ha] at hit
  obtain ⟨it0, h0, hcore⟩ := mem_applyAssign_core hit
  have h1 : it0 ∈ sortDesc (collectItems pd iso (sinceOf nowMs (clampHours hq))
      (feeds.zip fetched)) :=
    List.Sublist.mem h0 (dedupeAux_sublist [] _)
  have h2 : it0 ∈ collectItems pd iso (sinceOf nowMs (clampHours hq))
      (feeds.zip fetched) := (mem_sortDesc _ _).mp h1
  obtain ⟨f, e, hn⟩ := mem_collectItems h2
  obtain ⟨hti, hur, -, -, ms, hpa, hms⟩ := normalize_some_fields hn
  have het : it.title = it0.title := by
    have hc := congrArg Item.title hcore
    exact hc
  have heu : it.url = it0.url := by
    have hc := congrArg Item.url hcore
    exact hc
  have hep : it.publishedAt = it0.publishedAt := by
    have hc := congrArg Item.publishedAt hcore
    exact hc
  refine ⟨?_, ?_, ms, ?_, hms⟩
  · show it.title ≠ ""
    rw [het]; exact hti
  · show it.url ≠ ""
    rw [heu]; exact hur
  · show it.publishedAt = some (iso ms)
    rw [hep]; exact hpa

/-- C5 witness: the surviving sample item has its required fields. -/
theorem c5_window_witness :
    sampleOut.title ≠ "" ∧ sampleOut.url ≠ "" ∧
      ∃ ms : Int, sampleOut.publishedAt = some (sampleIso ms) ∧
        msBelowSince ms (sinceOf 0 (clampHours (some none))) = false :=
  (c5_window_and_required_fields samplePd sampleIso).1 [sampleFeed] [.ok [sampleEntry]]
    (fun _ => .error ()) false [] 0 0 (some none) "G" sampleOut (by decide)

/-! ## C3: failure isolation -/

/-- Unfolding of the collection over a cons of settled fetches. -/
theorem collectItems_cons (pd : String → Option Int) (iso : Int → String)
    (since : Option ℚ) (p : Feed × Except Unit (List RawEntry))
    (ps : List (Feed × Except Unit (List RawEntry))) :
    collectItems pd iso since (p :: ps)
      = (match p.2 with
          | .error _ => []
          | .ok entries => entries.filterMap (normalize pd iso since p.1))
        ++ collectItems pd iso since ps := by
  rw [collectItems, collectItems, List.flatMap_cons]

/-- A failed fetch contributes exactly what an empty successful fetch
contributes: nothing. -/
theorem collectItems_settleOk (pd : String → Option Int) (iso : Int → String)
    (since : Option ℚ) : ∀ (fs : List Feed) (rs : List (Except Unit (List RawEntry))),
    collectItems pd iso since (fs.zip (rs.map settleOk))
      = collectItems pd iso since (fs.zip rs) := by
  intro fs
  induction fs with
  | nil => intro rs; rfl
  | cons f fs1 ih =>
    intro rs
    cases rs with
    | nil => rfl
    | cons r rs1 =>
      rw [List.map_cons, List.zip_cons_cons, List.zip_cons_cons, collectItems_cons,
        collectItems_cons, ih]
      cases r with
      | error u => rfl
      | ok es => rfl

/-- A provider that always throws behaves exactly like a missing
credential: the stage still applies the cache hits and leaves the cache
untouched. -/
theorem translateStage_fail_eq (pr : List String → Except Unit (List String))
    (cache : TlCache) (now : Int) (l : List Item) :
    translateStage (fun _ => .error ()) true cache now l
      = translateStage pr false cache now l := by
  simp only [translateStage]
  by_cases hn : (probeCache cache now 0 (limitedOf l)).2.2 = []
  · simp [hn]
  · simp [hn]

/-- C3: external-I/O failures are absorbed at their boundaries: the
handler status is 200 for every combination of fetch and provider results;
a run with failed fetches equals the run where those feeds simply
delivered no entries (so all items of the surviving feeds are kept); and a
run whose provider call throws equals the run with no provider configured
(items keep only cache-hit translations, the cache is unchanged). -/
theorem c3_failure_isolation :
    ∀ pd iso feeds fetched pr hk cache nowMs tlNow hq gen,
      (runHandler pd iso feeds fetched pr hk cache nowMs tlNow hq gen).1.status = 200 ∧
      runHandler pd iso feeds fetched pr hk cache nowMs tlNow hq gen
        = runHandler pd iso feeds (fetched.map settleOk) pr hk cache nowMs tlNow hq gen ∧
      runHandler pd iso feeds fetched (fun _ => .error ()) true cache nowMs tlNow hq gen
        = runHandler pd iso feeds fetched pr false cache nowMs tlNow hq gen := by
  intro pd iso feeds fetched pr hk cache nowMs tlNow hq gen
  refine ⟨rfl, ?_, ?_⟩
  · simp only [runHandler]
    rw [collectItems_settleOk]
  · simp only [runHandler]
    rw [translateStage_fail_eq]

/-! ## C7: the translation cost bound -/

/-- Keys found by the index lookup are keys of the assignment. -/
theorem lookupNat_mem {c : Nat} {a : List (Nat × (Option String × Option String))}
    {p : Option String × Option String} (h : lookupNat c a = some p) :
    ∃ q ∈ a, q.1 = c := by
  rw [lookupNat] at h
  cases hf : List.find? (fun q => q.1 == c) a with
  | none => rw [hf] at h; simp at h
  | some q =>
    refine ⟨q, List.mem_of_find?_eq_some hf, ?_⟩
    have hq := List.find?_some hf
    simpa using hq

/-- Raising the index threshold cannot enlarge the filtered assignment. -/
theorem filter_ge_mono (a : List (Nat × (Option String × Option String))) :
    ∀ c : Nat, (a.filter fun p => c + 1 ≤ p.1).length
      ≤ (a.filter fun p => c ≤ p.1).length := by
  induction a with
  | nil => intro c; exact Nat.le_refl 0
  | cons q a1 ih =>
    intro c
    rw [List.filter_cons, List.filter_cons]
    by_cases h2 : c + 1 ≤ q.1
    · have h1 : c ≤ q.1 := by omega
      rw [if_pos (by simpa using h2), if_pos (by simpa using h1),
        List.length_cons, List.length_cons]
      exact Nat.succ_le_succ (ih c)
    · by_cases h1 : c ≤ q.1
      · rw [if_neg (by simpa using h2), if_pos (by simpa using h1), List.length_cons]
        exact Nat.le_trans (ih c) (Nat.le_succ _)
      · rw [if_neg (by simpa using h2), if_neg (by simpa using h1)]
        exact ih c

/-- An assignment containing the threshold index strictly shrinks when the
threshold passes it. -/
theorem filter_ge_succ_lt (c : Nat) :
    ∀ a : List (Nat × (Option String × Option String)), (∃ q ∈ a, q.1 = c) →
      (a.filter fun p => c + 1 ≤ p.1).length < (a.filter fun p => c ≤ p.1).length := by
  intro a
  induction a with
  | nil => intro hq; simp at hq
  | cons q a1 ih =>
    intro hq
    obtain ⟨q0, hq0, hc⟩ := hq
    rw [List.filter_cons, List.filter_cons]
    rcases List.mem_cons.mp hq0 with rfl | hmem
    · have h2 : ¬ c + 1 ≤ q0.1 := by omega
      have h1 : c ≤ q0.1 := by omega
      rw [if_neg (by simpa using h2), if_pos (by simpa using h1), List.length_cons]
      exact Nat.lt_succ_of_le (filter_ge_mono a1 c)
    · by_cases h2 : c + 1 ≤ q.1
      · have h1 : c ≤ q.1 := by omega
        rw [if_pos (by simpa using h2), if_pos (by simpa using h1),
          List.length_cons, List.length_cons]
        exact Nat.succ_lt_succ (ih ⟨q0, hmem, hc⟩)
      · by_cases h1 : c ≤ q.1
        · rw [if_neg (by simpa using h2), if_pos (by simpa using h1), List.length_cons]
          exact Nat.lt_succ_of_lt (ih ⟨q0, hmem, hc⟩)
        · rw [if_neg (by simpa using h2), if_neg (by simpa using h1)]
          exact ih ⟨q0, hmem, hc⟩

/-- The replay changes at most one item per assignment entry at or past
the starting counter. -/
theorem diffJaCount_applyAssign (a : List (Nat × (Option String × Option String))) :
    ∀ (c : Nat) (l : List Item),
      diffJaCount (applyAssign a c l) l ≤ (a.filter fun p => c ≤ p.1).length := by
  intro c l
  induction l generalizing c with
  | nil => simp [applyAssign, diffJaCount]
  | cons it rest ih =>
    by_cases hE : looksEnglish it.title = true
    · rw [applyAssign, if_pos hE]
      cases hl : lookupNat c a with
      | none =>
        rw [diffJaCount, if_pos ⟨rfl, rfl⟩]
        have hrec := ih (c + 1)
        have hmono := filter_ge_mono a c
        omega
      | some p =>
        rw [diffJaCount]
        dsimp only
        have hhead : (if (setJa it p).titleJa = it.titleJa ∧
            (setJa it p).summaryJa = it.summaryJa then (0 : Nat) else 1) ≤ 1 := by
          split
          · omega
          · omega
        have hrec := ih (c + 1)
        have hlt := filter_ge_succ_lt c a (lookupNat_mem hl)
        omega
    · rw [applyAssign, if_neg hE, diffJaCount, if_pos ⟨rfl, rfl⟩]
      have hrec := ih c
      omega

/-- C7: the limited candidate list is the first forty translation
candidates in deduplicated order; at most forty misses (two texts each)
are submitted to the provider; and the translate stage changes the
translation fields of at most forty items. -/
theorem c7_translation_limit (pr : List String → Except Unit (List String))
    (hk : Bool) (cache : TlCache) (now : Int) (l : List Item) :
    limitedOf l = (l.filter fun it => looksEnglish it.title).take TRANSLATE_LIMIT ∧
    (probeCache cache now 0 (limitedOf l)).2.1.length ≤ TRANSLATE_LIMIT ∧
    (probeCache cache now 0 (limitedOf l)).2.2.length
      = 2 * (probeCache cache now 0 (limitedOf l)).2.1.length ∧
    diffJaCount (translateStage pr hk cache now l).1 l ≤ TRANSLATE_LIMIT := by
  have hpart := probeCache_partition cache now 0 (limitedOf l)
  have hlim := limitedOf_length_le l
  refine ⟨rfl, by omega, hpart.2, ?_⟩
  obtain ⟨a, ha, hal⟩ := translateStage_assign pr hk cache now l
  rw [ha]
  have h1 := diffJaCount_applyAssign a 0 l
  have h2 : (a.filter fun p => 0 ≤ p.1).length ≤ a.length := List.length_filter_le _ _
  omega

/-! ## C6: translation cache idempotence under the TTL -/

/-- A fresh cache write is immediately visible under its key. -/
theorem cacheGet_set_self (c : TlCache) (k : String) (v : CacheEntry) :
    cacheGet (cacheSet c k v) k = some v := by
  rw [cacheSet, cacheGet]
  have hf := @List.find?_cons_of_pos _ (fun p : String × CacheEntry => p.1 = k)
    (k, v) (List.filter (fun p => p.1 ≠ k) c) (by simp)
  rw [hf]
  rfl

/-- C6: for a translatable item with no live cache entry, the first run
issues exactly one provider call and stores the translated pair under the
title-summary composite key with the call instant; a second run within the
TTL issues no call, whatever its provider would answer, and applies the
stored pair unchanged without touching the cache; a run at or past the TTL
treats the entry as absent: it issues a fresh call and overwrites the
entry with the new instant and values. -/
theorem c6_translation_cache_ttl
    (it : Item) (c0 : TlCache) (pr pr2 pr3 : List String → Except Unit (List String))
    (out out3 : List String) (now1 now2 now3 : Int)
    (tja sja : Option String) (c1 : TlCache)
    (hE : looksEnglish it.title = true)
    (hmiss : cacheGet c0 (keyOf it) = none)
    (hpr : pr [it.title, truncSummary it] = Except.ok out)
    (hout : out ≠ [])
    (htja : tja = jsOrNull (out.get? 0))
    (hsja : sja = jsOrNull (out.get? 1))
    (hc1 : c1 = cacheSet c0 (keyOf it) ⟨now1, tja, sja⟩)
    (hlive : now2 - now1 < TL_TTL_MS)
    (hdead : ¬ now3 - now1 < TL_TTL_MS)
    (hpr3 : pr3 [it.title, truncSummary it] = Except.ok out3)
    (hout3 : out3 ≠ []) :
    translateCalls true c0 now1 [it] = 1 ∧
    translateStage pr true c0 now1 [it] = ([setJa it (tja, sja)], c1) ∧
    (translateCalls true c1 now2 [it] = 0 ∧
      translateStage pr2 true c1 now2 [it] = ([setJa it (tja, sja)], c1)) ∧
    (translateCalls true c1 now3 [it] = 1 ∧
      translateStage pr3 true c1 now3 [it]
        = ([setJa it (jsOrNull (out3.get? 0), jsOrNull (out3.get? 1))],
           cacheSet c1 (keyOf it)
             ⟨now3, jsOrNull (out3.get? 0), jsOrNull (out3.get? 1)⟩)) := by
  subst hc1
  have hlim : limitedOf [it] = [it] := by
    simp [limitedOf, List.filter_cons, hE, TRANSLATE_LIMIT]
  have hprobe1 : probeCache c0 now1 0 [it]
      = ([], [(0, keyOf it)], [it.title, truncSummary it]) := by
    simp [probeCache, hmiss]
  have hget1 : cacheGet (cacheSet c0 (keyOf it) ⟨now1, tja, sja⟩) (keyOf it)
      = some ⟨now1, tja, sja⟩ :=
    cacheGet_set_self c0 (keyOf it) _
  have hprobe2 : probeCache (cacheSet c0 (keyOf it) ⟨now1, tja, sja⟩) now2 0 [it]
      = ([(0, (tja, sja))], [], []) := by
    simp [probeCache, hget1, hlive]
  have hprobe3 : probeCache (cacheSet c0 (keyOf it) ⟨now1, tja, sja⟩) now3 0 [it]
      = ([], [(0, keyOf it)], [it.title, truncSummary it]) := by
    simp [probeCache, hget1, hdead]
  have happly : ∀ p : Option String × Option String,
      applyAssign [(0, p)] 0 [it] = [setJa it p] := by
    intro p
    simp [applyAssign, hE, lookupNat]
  have hfresh : freshResults now1 out 0 [(0, keyOf it)]
      = ([(0, (jsOrNull (out.get? 0), jsOrNull (out.get? 1)))],
         [(keyOf it, ⟨now1, jsOrNull (out.get? 0), jsOrNull (out.get? 1)⟩)]) := by
    simp [freshResults]
  have hfresh3 : freshResults now3 out3 0 [(0, keyOf it)]
      = ([(0, (jsOrNull (out3.get? 0), jsOrNull (out3.get? 1)))],
         [(keyOf it, ⟨now3, jsOrNull (out3.get? 0), jsOrNull (out3.get? 1)⟩)]) := by
    simp [freshResults]
  have hcond1 : ([it.title, truncSummary it] ≠ [] ∧ (true : Bool) = true) :=
    ⟨List.cons_ne_nil _ _, rfl⟩
  have hcond2 : ¬ (([] : List String) ≠ [] ∧ (true : Bool) = true) := by simp
  refine ⟨?_, ?_, ⟨?_, ?_⟩, ⟨?_, ?_⟩⟩
  · rw [translateCalls, hlim, hprobe1]
    simp
  · rw [translateStage, hlim, hprobe1]
    dsimp only
    rw [if_pos hcond1, hpr]
    dsimp only
    rw [if_pos hout, hfresh]
    dsimp only
    rw [List.nil_append, happly, ← htja, ← hsja]
    rfl
  · rw [translateCalls, hlim, hprobe2]
    simp
  · rw [translateStage, hlim, hprobe2]
    dsimp only
    rw [if_neg hcond2, happly]
  · rw [translateCalls, hlim, hprobe3]
    simp
  · rw [translateStage, hlim, hprobe3]
    dsimp only
    rw [if_pos hcond1, hpr3]
    dsimp only
    rw [if_pos hout3, hfresh3]
    dsimp only
    rw [List.nil_append, happly]
    rfl

/-- C6 witness: one concrete item translated at instant 0, re-requested at
instant 1 (cache hit, no call) and at the TTL boundary (expired, a fresh
call). -/
theorem c6_translation_cache_ttl_witness :
    translateCalls true [] 0 [sampleTl] = 1 ∧
    translateCalls true (cacheSet [] (keyOf sampleTl)
      ⟨0, some "T1", some "S1"⟩) 1 [sampleTl] = 0 ∧
    translateCalls true (cacheSet [] (keyOf sampleTl)
      ⟨0, some "T1", some "S1"⟩) 21600000 [sampleTl] = 1 := by
  have h := c6_translation_cache_ttl sampleTl [] (fun _ => Except.ok ["T1", "S1"])
    (fun _ => Except.error ()) (fun _ => Except.ok ["T3", ""])
    ["T1", "S1"] ["T3", ""] 0 1 21600000 (some "T1") (some "S1")
    (cacheSet [] (keyOf sampleTl) ⟨0, some "T1", some "S1"⟩)
    (by decide) rfl rfl (by decide) (by decide) (by decide) rfl
    (by decide) (by decide) rfl (by decide)
  exact ⟨h.1, h.2.2.1.1, h.2.2.2.1⟩

end MusicNews
